import Mathlib

/-! String reversal by code point (`Week1/Tutorial/fuzz/main.go`).

A shallow embedding of `Reverse`, of the two slice helpers and of the rune
iteration in `main`, together with the parts of the Go `unicode/utf8` package
that they call (`ValidString`, `DecodeRuneInString`, the `[]rune(s)`
conversion and the `string(r)` conversion).

Conventions.
* A Go `string` / `[]byte` is a `List Nat`; a byte is a number below 256.
  A list element of 256 or more is not a byte: `first` classifies it as an
  illegal starter, so it is never part of a valid string.
* A `rune` produced by decoding is a number in `0 .. 0x10FFFF`; runes are
  carried as `Nat`.
* A function that may panic returns `Option`; `none` is the run-time fault.
* The error value of `Reverse` is `Option String`; `none` is the Go `nil`.
-/

namespace Fuzz

/-! ## Constants of `unicode/utf8` -/

/-- The replacement character U+FFFD (`utf8.RuneError`). -/
def RuneError : Nat := 0xFFFD
/-- Bytes below `RuneSelf` are single-byte code points. -/
def RuneSelf : Nat := 0x80
/-- The largest code point (`utf8.MaxRune`). -/
def MaxRune : Nat := 0x10FFFF

def surrogateMin : Nat := 0xD800
def surrogateMax : Nat := 0xDFFF

def t2 : Nat := 0xC0
def t3 : Nat := 0xE0
def t4 : Nat := 0xF0
def tx : Nat := 0x80

def maskx : Nat := 0x3F
def mask2 : Nat := 0x1F
def mask3 : Nat := 0x0F
def mask4 : Nat := 0x07

def rune1Max : Nat := 0x7F
def rune2Max : Nat := 0x7FF
def rune3Max : Nat := 0xFFFF

/-- The lowest continuation byte. -/
def locb : Nat := 0x80
/-- The highest continuation byte. -/
def hicb : Nat := 0xBF

/-- Entry of `first` for an illegal starter byte. -/
def xx : Nat := 0xF1
/-- Entry of `first` for an ASCII byte. -/
def as : Nat := 0xF0
def s1 : Nat := 0x02
def s2 : Nat := 0x13
def s3 : Nat := 0x03
def s4 : Nat := 0x23
def s5 : Nat := 0x34
def s6 : Nat := 0x04
def s7 : Nat := 0x44

/-- The table `first` of `unicode/utf8`: information about the first byte of
an encoding. The low three bits are the length of the encoding, the high four
bits index `acceptRanges`. -/
def first (b : Nat) : Nat :=
  if b < 0x80 then as
  else if b < 0xC2 then xx
  else if b < 0xE0 then s1
  else if b = 0xE0 then s2
  else if b < 0xED then s3
  else if b = 0xED then s4
  else if b < 0xF0 then s3
  else if b = 0xF0 then s5
  else if b < 0xF4 then s6
  else if b = 0xF4 then s7
  else xx

/-- The table `acceptRanges` of `unicode/utf8`: the range `(lo, hi)` allowed
for the second byte of an encoding. -/
def acceptRanges (k : Nat) : Nat × Nat :=
  match k with
  | 0 => (locb, hicb)
  | 1 => (0xA0, hicb)
  | 2 => (locb, 0x9F)
  | 3 => (0x90, hicb)
  | 4 => (locb, 0x8F)
  | _ => (0, 0)

/-! ## Decoding -/

/-- The function `utf8.DecodeRuneInString`: the first code point of `s` and
its width in bytes. An empty string gives `(RuneError, 0)`, an ill-formed
prefix gives `(RuneError, 1)`. This is also the decoding step of the
`[]rune(s)` conversion and of `range` over a string. -/
def DecodeRuneInString (s : List Nat) : Nat × Nat :=
  match s with
  | [] => (RuneError, 0)
  | s0 :: _ =>
    let x := first s0
    if x ≥ as then
      -- `mask` is all ones when the low bit of `x` is set (`x = xx`), else 0
      (if x &&& 1 = 1 then RuneError else s0, 1)
    else
      let sz := x &&& 7
      let accept := acceptRanges (x >>> 4)
      if s.length < sz then (RuneError, 1)
      else
        let c1 := s.getD 1 0
        if c1 < accept.1 ∨ accept.2 < c1 then (RuneError, 1)
        else if sz ≤ 2 then
          (((s0 &&& mask2) <<< 6) ||| (c1 &&& maskx), 2)
        else
          let c2 := s.getD 2 0
          if c2 < locb ∨ hicb < c2 then (RuneError, 1)
          else if sz ≤ 3 then
            (((s0 &&& mask3) <<< 12) ||| ((c1 &&& maskx) <<< 6) ||| (c2 &&& maskx), 3)
          else
            let c3 := s.getD 3 0
            if c3 < locb ∨ hicb < c3 then (RuneError, 1)
            else
              (((s0 &&& mask4) <<< 18) ||| ((c1 &&& maskx) <<< 12)
                ||| ((c2 &&& maskx) <<< 6) ||| (c3 &&& maskx), 4)

/-- The loop of the `[]rune(s)` conversion with an explicit bound on the
number of iterations: decode a code point, append it, skip its bytes. -/
def runesLoop : Nat → List Nat → List Nat
  | 0, _ => []
  | fuel + 1, s =>
    match s with
    | [] => []
    | _ :: _ =>
      let d := DecodeRuneInString s
      d.1 :: runesLoop fuel (s.drop d.2)

/-- The conversion `[]rune(s)`. Every iteration consumes at least one byte,
so `s.length` iterations are enough (`runesLoop_fuel`). -/
def stringToRunes (s : List Nat) : List Nat :=
  runesLoop s.length s

/-! ## Validation -/

/-- One iteration of the loop of `utf8.ValidString` at a non-empty rest `s`
of the string: `none` when the loop returns `false`, else the number of bytes
the iteration consumes. -/
def validStep (s : List Nat) : Option Nat :=
  let si := s.getD 0 0
  if si < RuneSelf then some 1
  else
    let x := first si
    if x = xx then none
    else
      let size := x &&& 7
      if s.length < size then none
      else
        let accept := acceptRanges (x >>> 4)
        let c1 := s.getD 1 0
        if c1 < accept.1 ∨ accept.2 < c1 then none
        else if size = 2 then some size
        else
          let c2 := s.getD 2 0
          if c2 < locb ∨ hicb < c2 then none
          else if size = 3 then some size
          else
            let c3 := s.getD 3 0
            if c3 < locb ∨ hicb < c3 then none
            else some size

/-- The loop of `utf8.ValidString` with an explicit bound on the number of
iterations. -/
def validLoop : Nat → List Nat → Bool
  | 0, s => s.isEmpty
  | fuel + 1, s =>
    match s with
    | [] => true
    | _ :: _ =>
      match validStep s with
      | none => false
      | some size => validLoop fuel (s.drop size)

/-- The function `utf8.ValidString`: whether `s` consists entirely of
well-formed UTF-8 encodings. Every iteration consumes at least one byte, so
`s.length` iterations are enough (`validLoop_fuel`). -/
def ValidString (s : List Nat) : Bool :=
  validLoop s.length s

/-! ## Encoding -/

/-- The encoding step of the `string(r)` conversion (`encoderune`): the UTF-8
bytes of the rune `r`. A surrogate or a value above `MaxRune` is encoded as
`RuneError`. `byte(v)` is `v % 256`. -/
def EncodeRune (r : Nat) : List Nat :=
  if r ≤ rune1Max then [r % 256]
  else if r ≤ rune2Max then
    [t2 ||| ((r >>> 6) % 256), tx ||| ((r % 256) &&& maskx)]
  else if r > MaxRune ∨ (surrogateMin ≤ r ∧ r ≤ surrogateMax) then
    [t3 ||| ((RuneError >>> 12) % 256), tx ||| (((RuneError >>> 6) % 256) &&& maskx),
      tx ||| ((RuneError % 256) &&& maskx)]
  else if r ≤ rune3Max then
    [t3 ||| ((r >>> 12) % 256), tx ||| (((r >>> 6) % 256) &&& maskx),
      tx ||| ((r % 256) &&& maskx)]
  else
    [t4 ||| ((r >>> 18) % 256), tx ||| (((r >>> 12) % 256) &&& maskx),
      tx ||| (((r >>> 6) % 256) &&& maskx), tx ||| ((r % 256) &&& maskx)]

/-- The conversion `string(r)` of a rune slice: the concatenation of the
encodings of its runes. -/
def runesToString : List Nat → List Nat
  | [] => []
  | r :: rs => EncodeRune r ++ runesToString rs

/-! ## `Reverse` -/

/-- The loop of `Reverse`,
`for i, j := 0, len(r)-1; i < len(r)/2; i, j = i+1, j-1 { r[i], r[j] = r[j], r[i] }`,
entered with the current `i` and `j`. An index outside `r` is the run-time
fault `none`. -/
def reverseLoop (r : List Nat) (i : Nat) (j : Int) : Option (List Nat) :=
  if i < r.length / 2 then
    if i < r.length ∧ 0 ≤ j ∧ j < r.length then
      reverseLoop ((r.set i (r.getD j.toNat 0)).set j.toNat (r.getD i 0)) (i + 1) (j - 1)
    else none
  else some r
termination_by r.length / 2 - i
decreasing_by
  simp only [List.length_set]
  omega

/-- The function `Reverse` of `main.go`. The result is `none` when the call
panics, else the pair of the returned string and the returned error. -/
def Reverse (s : List Nat) : Option (List Nat × Option String) :=
  if !ValidString s then
    some (s, some "input is not valid UTF-8")
  else
    match reverseLoop (stringToRunes s) 0 ((stringToRunes s).length - 1 : Int) with
    | none => none
    | some r => some (runesToString r, none)

/-- The loop of `Reverse` run for at most `fuel` iterations, recording the
index pair `(i, j)` of every swap in the order performed. The outer `none`
means that the bound was reached while the loop condition still held; the
inner `none` is the run-time fault of an index outside `r`. -/
def reverseLoopRun : Nat → List Nat → Nat → Int → Option (Option (List Nat × List (Nat × Int)))
  | 0, r, i, _ => if i < r.length / 2 then none else some (some (r, []))
  | fuel + 1, r, i, j =>
    if i < r.length / 2 then
      if i < r.length ∧ 0 ≤ j ∧ j < r.length then
        match reverseLoopRun fuel ((r.set i (r.getD j.toNat 0)).set j.toNat (r.getD i 0))
            (i + 1) (j - 1) with
        | none => none
        | some none => some none
        | some (some (r', tr)) => some (some (r', (i, j) :: tr))
      else some none
    else some (some (r, []))

/-- A code point that UTF-8 can encode: not a surrogate, at most `MaxRune`. -/
def ValidRune (r : Nat) : Prop :=
  r < surrogateMin ∨ (surrogateMax < r ∧ r ≤ MaxRune)

instance (r : Nat) : Decidable (ValidRune r) := by
  unfold ValidRune; infer_instance

/-! ## Constants of `main` -/

/-- The constant `input` of `main`: "The quick brown fox jumped over the lazy dog". -/
def input : List Nat :=
  [0x54, 0x68, 0x65, 0x20, 0x71, 0x75, 0x69, 0x63, 0x6B, 0x20, 0x62, 0x72, 0x6F, 0x77, 0x6E,
   0x20, 0x66, 0x6F, 0x78, 0x20, 0x6A, 0x75, 0x6D, 0x70, 0x65, 0x64, 0x20, 0x6F, 0x76, 0x65,
   0x72, 0x20, 0x74, 0x68, 0x65, 0x20, 0x6C, 0x61, 0x7A, 0x79, 0x20, 0x64, 0x6F, 0x67]

/-- The constant `nihongo` of `main`: "日本語". -/
def nihongo : List Nat := [0xE6, 0x97, 0xA5, 0xE6, 0x9C, 0xAC, 0xE8, 0xAA, 0x9E]

/-! ## The rune iteration of `main` and the slice helpers -/

/-- The rune iteration of `main` over a string `s`,
`for i, w := 0, 0; i < len(s); i += w`, whose body decodes the rune at
`s[i:]`, prints it with the position `i` and stores its width in `w`. The loop
is run for at most `fuel` iterations from the current `i`; the result is the
list of the pairs `(runeValue, i)` printed, or `none` when the bound is
reached while the loop condition still holds. -/
def runeIteration : Nat → List Nat → Nat → Option (List (Nat × Nat))
  | 0, s, i => if i < s.length then none else some []
  | fuel + 1, s, i =>
    if i < s.length then
      let d := DecodeRuneInString (s.drop i)
      let w := d.2
      match runeIteration fuel s (i + w) with
      | none => none
      | some out => some ((d.1, i) :: out)
    else some []

/-- The function `AddOneToEachElement` of `main.go`,
`for i := range slice { slice[i]++ }`: the contents of the slice after the
call. The increment of a byte wraps around at 256. -/
def AddOneToEachElement (slice : List Nat) : List Nat :=
  (List.range slice.length).foldl (fun sl i => sl.set i ((sl.getD i 0 + 1) % 256)) slice

/-- The slice expression `s[lo:hi]` on a slice whose capacity equals its
length: the run-time fault `none` unless `0 ≤ lo ≤ hi ≤ len(s)`. -/
def sliceExpr (s : List Nat) (lo hi : Int) : Option (List Nat) :=
  if 0 ≤ lo ∧ lo ≤ hi ∧ hi ≤ s.length then some ((s.take hi.toNat).drop lo.toNat) else none

/-- The function `SubtractOneFromLength` of `main.go`,
`slice = slice[0 : len(slice)-1]; return slice`. The upper index is below the
length, hence below the capacity, of any slice passed in. -/
def SubtractOneFromLength (slice : List Nat) : Option (List Nat) :=
  sliceExpr slice 0 ((slice.length : Int) - 1)

/-! ## Well-formed byte sequences (Unicode Table 3-7) -/

/-- A continuation byte. -/
def Cont (c : Nat) : Prop := 0x80 ≤ c ∧ c ≤ 0xBF
/-- A well-formed two-byte sequence. -/
def Wf2 (b0 c1 : Nat) : Prop := (0xC2 ≤ b0 ∧ b0 < 0xE0) ∧ Cont c1
/-- A well-formed three-byte sequence. -/
def Wf3 (b0 c1 c2 : Nat) : Prop :=
  ((b0 = 0xE0 ∧ 0xA0 ≤ c1 ∧ c1 ≤ 0xBF) ∨
   ((0xE1 ≤ b0 ∧ b0 < 0xED ∨ b0 = 0xEE ∨ b0 = 0xEF) ∧ Cont c1) ∨
   (b0 = 0xED ∧ 0x80 ≤ c1 ∧ c1 ≤ 0x9F)) ∧ Cont c2
/-- A well-formed four-byte sequence. -/
def Wf4 (b0 c1 c2 c3 : Nat) : Prop :=
  ((b0 = 0xF0 ∧ 0x90 ≤ c1 ∧ c1 ≤ 0xBF) ∨
   ((0xF1 ≤ b0 ∧ b0 < 0xF4) ∧ Cont c1) ∨
   (b0 = 0xF4 ∧ 0x80 ≤ c1 ∧ c1 ≤ 0x8F)) ∧ Cont c2 ∧ Cont c3

/-! ## The swap loop reverses the rune slice -/

theorem reverseLoop_spec (m : Nat) : ∀ (r : List Nat) (i : Nat),
    r.length / 2 - i = m → i ≤ r.length / 2 →
    ∃ r', reverseLoop r i ((r.length : Int) - 1 - i) = some r' ∧ r'.length = r.length ∧
      ∀ k, r'[k]? = if i ≤ k ∧ k + i + 1 ≤ r.length then r[r.length - 1 - k]? else r[k]? := by
  induction m with
  | zero =>
    intro r i hm hi
    refine ⟨r, ?_, rfl, ?_⟩
    · rw [reverseLoop]
      have : ¬ i < r.length / 2 := by omega
      simp [this]
    · intro k
      split
      · have : k = r.length - 1 - k := by omega
        rw [← this]
      · rfl
  | succ m ih =>
    intro r i hm hi
    have hlt : i < r.length / 2 := by omega
    have hb : i < r.length ∧ (0 : Int) ≤ (r.length : Int) - 1 - i ∧
        (r.length : Int) - 1 - i < r.length := by omega
    have hj : ((r.length : Int) - 1 - i).toNat = r.length - 1 - i := by omega
    obtain ⟨r', h1, h2, h3⟩ := ih ((r.set i (r.getD (r.length - 1 - i) 0)).set
      (r.length - 1 - i) (r.getD i 0)) (i + 1) (by simp; omega) (by simp; omega)
    refine ⟨r', ?_, by simpa using h2, ?_⟩
    · rw [reverseLoop]
      simp only [hlt, hb, hj, if_true, and_self]
      simp only [List.length_set] at h1
      rw [← h1]
      congr 1
      push_cast
      omega
    · intro k
      rw [h3 k]
      simp only [List.length_set, List.getElem?_set, List.getD_eq_getElem?_getD]
      have e1 : r[i]? = some (r[i]) := List.getElem?_eq_getElem hb.1
      have e2 : r[r.length - 1 - i]? = some (r[r.length - 1 - i]) :=
        List.getElem?_eq_getElem (by omega)
      rw [e1, e2]
      simp only [Option.getD_some]
      by_cases hk1 : k = i
      · subst hk1
        have c1 : ¬ (k + 1 ≤ k ∧ k + (k + 1) + 1 ≤ r.length) := by omega
        have c2 : ¬ (r.length - 1 - k = k) := by omega
        have c3 : k ≤ k ∧ k + k + 1 ≤ r.length := by omega
        simp only [c1, c2, c3, hb.1, if_true, if_false, and_self, e2]
      · by_cases hk2 : k = r.length - 1 - i
        · subst hk2
          have c1 : ¬ (i + 1 ≤ r.length - 1 - i ∧ r.length - 1 - i + (i + 1) + 1 ≤ r.length) := by
            omega
          have c3 : i ≤ r.length - 1 - i ∧ r.length - 1 - i + i + 1 ≤ r.length := by omega
          have c4 : r.length - 1 - i < r.length := by omega
          have c5 : r.length - 1 - (r.length - 1 - i) = i := by omega
          simp only [c1, c3, c4, c5, if_true, if_false, and_self, e1]
        · by_cases hk3 : i ≤ k ∧ k + i + 1 ≤ r.length
          · have c1 : i + 1 ≤ k ∧ k + (i + 1) + 1 ≤ r.length := by omega
            have c2 : ¬ (r.length - 1 - i = r.length - 1 - k) := by omega
            have c3 : ¬ (i = r.length - 1 - k) := by omega
            simp only [c1, c2, c3, hk3, if_true, if_false, and_self]
          · have c1 : ¬ (i + 1 ≤ k ∧ k + (i + 1) + 1 ≤ r.length) := by omega
            have c2 : ¬ (r.length - 1 - i = k) := by omega
            have c3 : ¬ (i = k) := by omega
            simp only [c1, c2, c3, hk3, if_true, if_false, and_self]


theorem reverseLoop_eq_reverse (r : List Nat) :
    reverseLoop r 0 ((r.length : Int) - 1) = some r.reverse := by
  obtain ⟨r', h1, h2, h3⟩ := reverseLoop_spec _ r 0 rfl (Nat.zero_le _)
  have : r' = r.reverse := by
    apply List.ext_getElem?
    intro k
    rw [h3 k]
    by_cases hk : k < r.length
    · have c : 0 ≤ k ∧ k + 0 + 1 ≤ r.length := by omega
      rw [if_pos c, List.getElem?_reverse hk]
    · have c : ¬ (0 ≤ k ∧ k + 0 + 1 ≤ r.length) := by omega
      rw [if_neg c, List.getElem?_eq_none (by omega), List.getElem?_eq_none (by simp; omega)]
  rw [← this, ← h1]
  congr 1
  simp

/-! ## Bit operations as arithmetic -/

theorem or_low (a k b : Nat) (h : b < 2 ^ k) : a * 2 ^ k ||| b = a * 2 ^ k + b := by
  rw [Nat.mul_comm]
  exact (Nat.mul_add_lt_is_or h a).symm

theorem and_63 (v : Nat) : v &&& 0x3F = v % 64 := Nat.and_pow_two_sub_one_eq_mod v 6
theorem and_31 (v : Nat) : v &&& 0x1F = v % 32 := Nat.and_pow_two_sub_one_eq_mod v 5
theorem and_15 (v : Nat) : v &&& 0x0F = v % 16 := Nat.and_pow_two_sub_one_eq_mod v 4
theorem and_7 (v : Nat) : v &&& 0x07 = v % 8 := Nat.and_pow_two_sub_one_eq_mod v 3
theorem and_1 (v : Nat) : v &&& 1 = v % 2 := Nat.and_pow_two_sub_one_eq_mod v 1

theorem dec2 (a b : Nat) : (a <<< 6) ||| (b &&& 0x3F) = a * 64 + b % 64 := by
  rw [and_63, Nat.shiftLeft_eq]
  exact or_low a 6 _ (Nat.mod_lt _ (by decide))

theorem dec3 (a b c : Nat) :
    (a <<< 12) ||| ((b &&& 0x3F) <<< 6) ||| (c &&& 0x3F) = a * 4096 + b % 64 * 64 + c % 64 := by
  rw [and_63, and_63, Nat.shiftLeft_eq, Nat.shiftLeft_eq,
    or_low a 12 (b % 64 * 2 ^ 6) (by omega)]
  have e : a * 2 ^ 12 + b % 64 * 2 ^ 6 = (a * 64 + b % 64) * 2 ^ 6 := by omega
  rw [e, or_low _ 6 (c % 64) (by omega)]
  omega

theorem dec4 (a b c d : Nat) :
    (a <<< 18) ||| ((b &&& 0x3F) <<< 12) ||| ((c &&& 0x3F) <<< 6) ||| (d &&& 0x3F)
      = a * 262144 + b % 64 * 4096 + c % 64 * 64 + d % 64 := by
  rw [and_63, and_63, and_63, Nat.shiftLeft_eq, Nat.shiftLeft_eq, Nat.shiftLeft_eq,
    or_low a 18 (b % 64 * 2 ^ 12) (by omega)]
  have e : a * 2 ^ 18 + b % 64 * 2 ^ 12 = (a * 64 + b % 64) * 2 ^ 12 := by omega
  rw [e, or_low _ 12 (c % 64 * 2 ^ 6) (by omega)]
  have e2 : (a * 64 + b % 64) * 2 ^ 12 + c % 64 * 2 ^ 6
      = ((a * 64 + b % 64) * 64 + c % 64) * 2 ^ 6 := by omega
  rw [e2, or_low _ 6 (d % 64) (by omega)]
  omega

theorem enc_t3 (v : Nat) (h : v < 16) : 0xE0 ||| (v % 256) = 0xE0 + v := by
  have : v % 256 = v := by omega
  rw [this]
  exact or_low 14 4 _ h

theorem enc_t4 (v : Nat) (h : v < 8) : 0xF0 ||| (v % 256) = 0xF0 + v := by
  have : v % 256 = v := by omega
  rw [this]
  exact or_low 30 3 _ h

theorem enc_tx (v : Nat) : 0x80 ||| ((v % 256) &&& 0x3F) = 0x80 + v % 64 := by
  rw [and_63]
  have : v % 256 % 64 = v % 64 := by omega
  rw [this]
  exact or_low 2 6 _ (Nat.mod_lt _ (by decide))

theorem enc_t2 (v : Nat) (h : v < 32) : 0xC0 ||| (v % 256) = 0xC0 + v := by
  have : v % 256 = v := by omega
  rw [this]
  exact or_low 6 5 _ h


theorem first_as (b : Nat) (h : b < 0x80) : first b = 0xF0 := by
  unfold first; split_ifs; rfl
theorem first_xx (b : Nat) (h : 0x80 ≤ b ∧ b < 0xC2 ∨ 0xF4 < b) : first b = 0xF1 := by
  unfold first; split_ifs <;> first | rfl | omega
theorem first_s1 (b : Nat) (h : 0xC2 ≤ b ∧ b < 0xE0) : first b = 0x02 := by
  unfold first; split_ifs <;> first | rfl | omega
theorem first_s2 : first 0xE0 = 0x13 := by decide
theorem first_s3 (b : Nat) (h : 0xE1 ≤ b ∧ b < 0xED ∨ b = 0xEE ∨ b = 0xEF) : first b = 0x03 := by
  unfold first; split_ifs <;> first | rfl | omega
theorem first_s4 : first 0xED = 0x23 := by decide
theorem first_s5 : first 0xF0 = 0x34 := by decide
theorem first_s6 (b : Nat) (h : 0xF1 ≤ b ∧ b < 0xF4) : first b = 0x04 := by
  unfold first; split_ifs <;> first | rfl | omega
theorem first_s7 : first 0xF4 = 0x44 := by decide

theorem byte_cases (b : Nat) :
    b < 0x80 ∨ (0x80 ≤ b ∧ b < 0xC2 ∨ 0xF4 < b) ∨ (0xC2 ≤ b ∧ b < 0xE0) ∨ b = 0xE0 ∨
    (0xE1 ≤ b ∧ b < 0xED ∨ b = 0xEE ∨ b = 0xEF) ∨ b = 0xED ∨ b = 0xF0 ∨
    (0xF1 ≤ b ∧ b < 0xF4) ∨ b = 0xF4 := by omega

theorem validStep_inv (b0 : Nat) (t : List Nat) (n : Nat) (h : validStep (b0 :: t) = some n) :
    (b0 < 0x80 ∧ n = 1) ∨
    (∃ c1 u, t = c1 :: u ∧ n = 2 ∧ Wf2 b0 c1) ∨
    (∃ c1 c2 u, t = c1 :: c2 :: u ∧ n = 3 ∧ Wf3 b0 c1 c2) ∨
    (∃ c1 c2 c3 u, t = c1 :: c2 :: c3 :: u ∧ n = 4 ∧ Wf4 b0 c1 c2 c3) := by
  rcases byte_cases b0 with hb | hb | hb | hb | hb | hb | hb | hb | hb
  · left
    simp [validStep, RuneSelf, hb] at h
    exact ⟨hb, h.symm⟩
  · exfalso
    have h3 : ¬ b0 < 0x80 := by omega
    simp [validStep, RuneSelf, first_xx b0 hb, h3, xx] at h
  · right; left
    have h3 : ¬ b0 < 0x80 := by omega
    match t, h with
    | [], h => simp [validStep, RuneSelf, first_s1 b0 hb, h3, and_7, xx] at h
    | c1 :: u, h =>
      simp [validStep, RuneSelf, first_s1 b0 hb, h3, and_7, xx, acceptRanges, locb, hicb] at h
      exact ⟨c1, u, rfl, h.2.symm, hb, h.1⟩
  · right; right; left
    subst hb
    match t, h with
    | [], h => simp [validStep, RuneSelf, first_s2, and_7, xx] at h
    | [c1], h => simp [validStep, RuneSelf, first_s2, and_7, xx] at h
    | c1 :: c2 :: u, h =>
      simp [validStep, RuneSelf, first_s2, and_7, xx, acceptRanges, locb, hicb] at h
      exact ⟨c1, c2, u, rfl, h.2.2.symm, Or.inl ⟨rfl, h.1⟩, h.2.1⟩
  · right; right; left
    have h3 : ¬ b0 < 0x80 := by omega
    match t, h with
    | [], h => simp [validStep, RuneSelf, first_s3 b0 hb, h3, and_7, xx] at h
    | [c1], h => simp [validStep, RuneSelf, first_s3 b0 hb, h3, and_7, xx] at h
    | c1 :: c2 :: u, h =>
      simp [validStep, RuneSelf, first_s3 b0 hb, h3, and_7, xx, acceptRanges, locb, hicb] at h
      exact ⟨c1, c2, u, rfl, h.2.2.symm, Or.inr (Or.inl ⟨hb, h.1⟩), h.2.1⟩
  · right; right; left
    subst hb
    match t, h with
    | [], h => simp [validStep, RuneSelf, first_s4, and_7, xx] at h
    | [c1], h => simp [validStep, RuneSelf, first_s4, and_7, xx] at h
    | c1 :: c2 :: u, h =>
      simp [validStep, RuneSelf, first_s4, and_7, xx, acceptRanges, locb, hicb] at h
      exact ⟨c1, c2, u, rfl, h.2.2.symm, Or.inr (Or.inr ⟨rfl, h.1⟩), h.2.1⟩
  · right; right; right
    subst hb
    match t, h with
    | [], h => simp [validStep, RuneSelf, first_s5, and_7, xx] at h
    | [c1], h => simp [validStep, RuneSelf, first_s5, and_7, xx] at h
    | [c1, c2], h => simp [validStep, RuneSelf, first_s5, and_7, xx] at h
    | c1 :: c2 :: c3 :: u, h =>
      simp [validStep, RuneSelf, first_s5, and_7, xx, acceptRanges, locb, hicb] at h
      exact ⟨c1, c2, c3, u, rfl, h.2.2.2.symm, Or.inl ⟨rfl, h.1⟩, h.2.1, h.2.2.1⟩
  · right; right; right
    have h3 : ¬ b0 < 0x80 := by omega
    match t, h with
    | [], h => simp [validStep, RuneSelf, first_s6 b0 hb, h3, and_7, xx] at h
    | [c1], h => simp [validStep, RuneSelf, first_s6 b0 hb, h3, and_7, xx] at h
    | [c1, c2], h => simp [validStep, RuneSelf, first_s6 b0 hb, h3, and_7, xx] at h
    | c1 :: c2 :: c3 :: u, h =>
      simp [validStep, RuneSelf, first_s6 b0 hb, h3, and_7, xx, acceptRanges, locb, hicb] at h
      exact ⟨c1, c2, c3, u, rfl, h.2.2.2.symm, Or.inr (Or.inl ⟨hb, h.1⟩), h.2.1, h.2.2.1⟩
  · right; right; right
    subst hb
    match t, h with
    | [], h => simp [validStep, RuneSelf, first_s7, and_7, xx] at h
    | [c1], h => simp [validStep, RuneSelf, first_s7, and_7, xx] at h
    | [c1, c2], h => simp [validStep, RuneSelf, first_s7, and_7, xx] at h
    | c1 :: c2 :: c3 :: u, h =>
      simp [validStep, RuneSelf, first_s7, and_7, xx, acceptRanges, locb, hicb] at h
      exact ⟨c1, c2, c3, u, rfl, h.2.2.2.symm, Or.inr (Or.inr ⟨rfl, h.1⟩), h.2.1, h.2.2.1⟩

theorem validStep_wf1 (b0 : Nat) (u : List Nat) (h : b0 < 0x80) :
    validStep (b0 :: u) = some 1 := by
  simp [validStep, RuneSelf, h]

theorem validStep_wf2 (b0 c1 : Nat) (u : List Nat) (h : Wf2 b0 c1) :
    validStep (b0 :: c1 :: u) = some 2 := by
  obtain ⟨hb, hc⟩ := h
  have h3 : ¬ b0 < 0x80 := by omega
  simp [validStep, RuneSelf, first_s1 b0 hb, h3, and_7, xx, acceptRanges, locb, hicb]
  exact hc

theorem validStep_wf3 (b0 c1 c2 : Nat) (u : List Nat) (h : Wf3 b0 c1 c2) :
    validStep (b0 :: c1 :: c2 :: u) = some 3 := by
  obtain ⟨hb | hb | hb, hc⟩ := h
  · obtain ⟨rfl, hb⟩ := hb
    simp [validStep, RuneSelf, first_s2, and_7, xx, acceptRanges, locb, hicb]
    exact ⟨hb, hc⟩
  · obtain ⟨hb, hc1⟩ := hb
    have h3 : ¬ b0 < 0x80 := by omega
    simp [validStep, RuneSelf, first_s3 b0 hb, h3, and_7, xx, acceptRanges, locb, hicb]
    exact ⟨hc1, hc⟩
  · obtain ⟨rfl, hb⟩ := hb
    simp [validStep, RuneSelf, first_s4, and_7, xx, acceptRanges, locb, hicb]
    exact ⟨hb, hc⟩

theorem validStep_wf4 (b0 c1 c2 c3 : Nat) (u : List Nat) (h : Wf4 b0 c1 c2 c3) :
    validStep (b0 :: c1 :: c2 :: c3 :: u) = some 4 := by
  obtain ⟨hb | hb | hb, hc, hd⟩ := h
  · obtain ⟨rfl, hb⟩ := hb
    simp [validStep, RuneSelf, first_s5, and_7, xx, acceptRanges, locb, hicb]
    exact ⟨hb, hc, hd⟩
  · obtain ⟨hb, hc1⟩ := hb
    have h3 : ¬ b0 < 0x80 := by omega
    simp [validStep, RuneSelf, first_s6 b0 hb, h3, and_7, xx, acceptRanges, locb, hicb]
    exact ⟨hc1, hc, hd⟩
  · obtain ⟨rfl, hb⟩ := hb
    simp [validStep, RuneSelf, first_s7, and_7, xx, acceptRanges, locb, hicb]
    exact ⟨hb, hc, hd⟩

theorem decode_wf1 (b0 : Nat) (u : List Nat) (h : b0 < 0x80) :
    DecodeRuneInString (b0 :: u) = (b0, 1) := by
  simp [DecodeRuneInString, first_as b0 h, as, and_1]

theorem decode_wf2 (b0 c1 : Nat) (u : List Nat) (h : Wf2 b0 c1) :
    DecodeRuneInString (b0 :: c1 :: u) = (b0 % 32 * 64 + c1 % 64, 2) := by
  obtain ⟨hb, hc⟩ := h
  have hc1 : ¬ (c1 < 128 ∨ 191 < c1) := by unfold Cont at hc; omega
  simp [DecodeRuneInString, first_s1 b0 hb, as, and_7, acceptRanges, locb, hicb, hc1,
    mask2, maskx, dec2, and_31]

theorem decode_wf3 (b0 c1 c2 : Nat) (u : List Nat) (h : Wf3 b0 c1 c2) :
    DecodeRuneInString (b0 :: c1 :: c2 :: u) = (b0 % 16 * 4096 + c1 % 64 * 64 + c2 % 64, 3) := by
  obtain ⟨hb | hb | hb, hc⟩ := h
  · obtain ⟨hb0, hb⟩ := hb
    have hf : first b0 = 0x13 := by rw [hb0]; exact first_s2
    have hc1 : ¬ (c1 < 160 ∨ 191 < c1) := by omega
    have hc2 : ¬ (c2 < 128 ∨ 191 < c2) := by unfold Cont at hc; omega
    simp [DecodeRuneInString, hf, as, and_7, acceptRanges, locb, hicb, hc1, hc2,
      mask3, maskx, dec3, and_15]
  · obtain ⟨hb, hc1⟩ := hb
    have hc1 : ¬ (c1 < 128 ∨ 191 < c1) := by unfold Cont at hc1; omega
    have hc2 : ¬ (c2 < 128 ∨ 191 < c2) := by unfold Cont at hc; omega
    simp [DecodeRuneInString, first_s3 b0 hb, as, and_7, acceptRanges, locb, hicb, hc1, hc2,
      mask3, maskx, dec3, and_15]
  · obtain ⟨hb0, hb⟩ := hb
    have hf : first b0 = 0x23 := by rw [hb0]; exact first_s4
    have hc1 : ¬ (c1 < 128 ∨ 159 < c1) := by omega
    have hc2 : ¬ (c2 < 128 ∨ 191 < c2) := by unfold Cont at hc; omega
    simp [DecodeRuneInString, hf, as, and_7, acceptRanges, locb, hicb, hc1, hc2,
      mask3, maskx, dec3, and_15]

theorem decode_wf4 (b0 c1 c2 c3 : Nat) (u : List Nat) (h : Wf4 b0 c1 c2 c3) :
    DecodeRuneInString (b0 :: c1 :: c2 :: c3 :: u)
      = (b0 % 8 * 262144 + c1 % 64 * 4096 + c2 % 64 * 64 + c3 % 64, 4) := by
  obtain ⟨hb | hb | hb, hc, hd⟩ := h
  · obtain ⟨hb0, hb⟩ := hb
    have hf : first b0 = 0x34 := by rw [hb0]; exact first_s5
    have hc1 : ¬ (c1 < 144 ∨ 191 < c1) := by omega
    have hc2 : ¬ (c2 < 128 ∨ 191 < c2) := by unfold Cont at hc; omega
    have hc3 : ¬ (c3 < 128 ∨ 191 < c3) := by unfold Cont at hd; omega
    simp [DecodeRuneInString, hf, as, and_7, acceptRanges, locb, hicb, hc1, hc2, hc3,
      mask4, maskx, dec4]
  · obtain ⟨hb, hc1⟩ := hb
    have hc1 : ¬ (c1 < 128 ∨ 191 < c1) := by unfold Cont at hc1; omega
    have hc2 : ¬ (c2 < 128 ∨ 191 < c2) := by unfold Cont at hc; omega
    have hc3 : ¬ (c3 < 128 ∨ 191 < c3) := by unfold Cont at hd; omega
    simp [DecodeRuneInString, first_s6 b0 hb, as, and_7, acceptRanges, locb, hicb, hc1, hc2,
      hc3, mask4, maskx, dec4]
  · obtain ⟨hb0, hb⟩ := hb
    have hf : first b0 = 0x44 := by rw [hb0]; exact first_s7
    have hc1 : ¬ (c1 < 128 ∨ 143 < c1) := by omega
    have hc2 : ¬ (c2 < 128 ∨ 191 < c2) := by unfold Cont at hc; omega
    have hc3 : ¬ (c3 < 128 ∨ 191 < c3) := by unfold Cont at hd; omega
    simp [DecodeRuneInString, hf, as, and_7, acceptRanges, locb, hicb, hc1, hc2, hc3,
      mask4, maskx, dec4]

theorem EncodeRune_one (r : Nat) (h : r ≤ 0x7F) : EncodeRune r = [r] := by
  have e : r % 256 = r := by omega
  simp [EncodeRune, rune1Max, h, e]

theorem EncodeRune_two (r : Nat) (h1 : 0x80 ≤ r) (h2 : r ≤ 0x7FF) :
    EncodeRune r = [0xC0 + r / 64, 0x80 + r % 64] := by
  have c1 : ¬ r ≤ 0x7F := by omega
  have e : t2 ||| ((r >>> 6) % 256) = 0xC0 + r / 64 := by
    rw [Nat.shiftRight_eq_div_pow]
    exact enc_t2 _ (by omega)
  have e2 : tx ||| ((r % 256) &&& maskx) = 0x80 + r % 64 := enc_tx r
  simp only [EncodeRune, rune1Max, rune2Max, c1, h2, if_true, if_false, e, e2]

theorem EncodeRune_bad (r : Nat) (h : 0x10FFFF < r ∨ (0xD800 ≤ r ∧ r ≤ 0xDFFF)) :
    EncodeRune r = [0xEF, 0xBF, 0xBD] := by
  have c1 : ¬ r ≤ 0x7F := by omega
  have c2 : ¬ r ≤ 0x7FF := by omega
  have c3 : r > 0x10FFFF ∨ (0xD800 ≤ r ∧ r ≤ 0xDFFF) := h
  simp only [EncodeRune, rune1Max, rune2Max, MaxRune, surrogateMin, surrogateMax, c1, c2, c3,
    if_true, if_false]
  decide

theorem EncodeRune_three (r : Nat) (h1 : 0x800 ≤ r) (h2 : r ≤ 0xFFFF)
    (h3 : ¬ (0xD800 ≤ r ∧ r ≤ 0xDFFF)) :
    EncodeRune r = [0xE0 + r / 4096, 0x80 + r / 64 % 64, 0x80 + r % 64] := by
  have c1 : ¬ r ≤ 0x7F := by omega
  have c2 : ¬ r ≤ 0x7FF := by omega
  have c3 : ¬ (r > 0x10FFFF ∨ (0xD800 ≤ r ∧ r ≤ 0xDFFF)) := by omega
  have e : t3 ||| ((r >>> 12) % 256) = 0xE0 + r / 4096 := by
    rw [Nat.shiftRight_eq_div_pow]
    exact enc_t3 _ (by omega)
  have e1 : tx ||| (((r >>> 6) % 256) &&& maskx) = 0x80 + r / 64 % 64 := by
    rw [Nat.shiftRight_eq_div_pow]
    exact enc_tx _
  have e2 : tx ||| ((r % 256) &&& maskx) = 0x80 + r % 64 := enc_tx r
  simp only [EncodeRune, rune1Max, rune2Max, rune3Max, MaxRune, surrogateMin, surrogateMax,
    c1, c2, c3, h2, if_true, if_false, e, e1, e2]

theorem EncodeRune_four (r : Nat) (h1 : 0x10000 ≤ r) (h2 : r ≤ 0x10FFFF) :
    EncodeRune r = [0xF0 + r / 262144, 0x80 + r / 4096 % 64, 0x80 + r / 64 % 64,
      0x80 + r % 64] := by
  have c1 : ¬ r ≤ 0x7F := by omega
  have c2 : ¬ r ≤ 0x7FF := by omega
  have c3 : ¬ (r > 0x10FFFF ∨ (0xD800 ≤ r ∧ r ≤ 0xDFFF)) := by omega
  have c4 : ¬ r ≤ 0xFFFF := by omega
  have e : t4 ||| ((r >>> 18) % 256) = 0xF0 + r / 262144 := by
    rw [Nat.shiftRight_eq_div_pow]
    exact enc_t4 _ (by omega)
  have e0 : tx ||| (((r >>> 12) % 256) &&& maskx) = 0x80 + r / 4096 % 64 := by
    rw [Nat.shiftRight_eq_div_pow]
    exact enc_tx _
  have e1 : tx ||| (((r >>> 6) % 256) &&& maskx) = 0x80 + r / 64 % 64 := by
    rw [Nat.shiftRight_eq_div_pow]
    exact enc_tx _
  have e2 : tx ||| ((r % 256) &&& maskx) = 0x80 + r % 64 := enc_tx r
  simp only [EncodeRune, rune1Max, rune2Max, rune3Max, MaxRune, surrogateMin, surrogateMax,
    c1, c2, c3, c4, if_true, if_false, e, e0, e1, e2]

theorem encode_wf2 (b0 c1 : Nat) (h : Wf2 b0 c1) :
    EncodeRune (b0 % 32 * 64 + c1 % 64) = [b0, c1] ∧ ValidRune (b0 % 32 * 64 + c1 % 64) := by
  obtain ⟨hb, hc⟩ := h
  unfold Cont at hc
  constructor
  · rw [EncodeRune_two _ (by omega) (by omega)]
    congr 1
    · omega
    · congr 1; omega
  · left; unfold surrogateMin; omega

theorem encode_wf3 (b0 c1 c2 : Nat) (h : Wf3 b0 c1 c2) :
    EncodeRune (b0 % 16 * 4096 + c1 % 64 * 64 + c2 % 64) = [b0, c1, c2] ∧
      ValidRune (b0 % 16 * 4096 + c1 % 64 * 64 + c2 % 64) := by
  unfold Wf3 Cont at h
  constructor
  · rw [EncodeRune_three _ (by omega) (by omega) (by omega)]
    congr 1
    · omega
    · congr 1
      · omega
      · congr 1; omega
  · unfold ValidRune surrogateMin surrogateMax MaxRune; omega

theorem encode_wf4 (b0 c1 c2 c3 : Nat) (h : Wf4 b0 c1 c2 c3) :
    EncodeRune (b0 % 8 * 262144 + c1 % 64 * 4096 + c2 % 64 * 64 + c3 % 64) = [b0, c1, c2, c3] ∧
      ValidRune (b0 % 8 * 262144 + c1 % 64 * 4096 + c2 % 64 * 64 + c3 % 64) := by
  unfold Wf4 Cont at h
  constructor
  · rw [EncodeRune_four _ (by omega) (by omega)]
    congr 1
    · omega
    · congr 1
      · omega
      · congr 1
        · omega
        · congr 1; omega
  · unfold ValidRune surrogateMin surrogateMax MaxRune; omega

theorem ValidRune_shape (r : Nat) (h : ValidRune r) :
    r < 0x80 ∨
    (∃ b0 c1, Wf2 b0 c1 ∧ b0 % 32 * 64 + c1 % 64 = r) ∨
    (∃ b0 c1 c2, Wf3 b0 c1 c2 ∧ b0 % 16 * 4096 + c1 % 64 * 64 + c2 % 64 = r) ∨
    (∃ b0 c1 c2 c3, Wf4 b0 c1 c2 c3 ∧
      b0 % 8 * 262144 + c1 % 64 * 4096 + c2 % 64 * 64 + c3 % 64 = r) := by
  unfold ValidRune surrogateMin surrogateMax MaxRune at h
  by_cases h1 : r < 0x80
  · exact Or.inl h1
  by_cases h2 : r < 0x800
  · right; left
    refine ⟨0xC0 + r / 64, 0x80 + r % 64, ?_, ?_⟩
    · unfold Wf2 Cont; omega
    · omega
  by_cases h3 : r < 0x10000
  · right; right; left
    refine ⟨0xE0 + r / 4096, 0x80 + r / 64 % 64, 0x80 + r % 64, ?_, ?_⟩
    · unfold Wf3 Cont; omega
    · omega
  · right; right; right
    refine ⟨0xF0 + r / 262144, 0x80 + r / 4096 % 64, 0x80 + r / 64 % 64, 0x80 + r % 64, ?_, ?_⟩
    · unfold Wf4 Cont; omega
    · omega

/-! ## The loops of `ValidString` and `[]rune(s)` -/

theorem validStep_pos (b0 : Nat) (t : List Nat) (n : Nat) (h : validStep (b0 :: t) = some n) :
    1 ≤ n := by
  rcases validStep_inv b0 t n h with h | ⟨_, _, _, h, _⟩ | ⟨_, _, _, _, h, _⟩ |
    ⟨_, _, _, _, _, h, _⟩ <;> omega

theorem decode_width_pos (b0 : Nat) (t : List Nat) :
    1 ≤ (DecodeRuneInString (b0 :: t)).2 := by
  simp only [DecodeRuneInString]
  split_ifs <;> simp

theorem validLoop_fuel (n : Nat) : ∀ (m : Nat) (s : List Nat), s.length ≤ n → s.length ≤ m →
    validLoop n s = validLoop m s := by
  induction n with
  | zero =>
    intro m s h _
    have : s = [] := List.eq_nil_of_length_eq_zero (by omega)
    subst this
    cases m <;> rfl
  | succ n ih =>
    intro m s h1 h2
    match s, m with
    | [], 0 => rfl
    | [], m + 1 => rfl
    | b0 :: t, 0 => simp at h2
    | b0 :: t, m + 1 =>
      simp only [validLoop]
      cases hv : validStep (b0 :: t) with
      | none => rfl
      | some k =>
        have hk := validStep_pos b0 t k hv
        simp only
        apply ih
        · simp only [List.length_drop, List.length_cons] at h1 ⊢; omega
        · simp only [List.length_drop, List.length_cons] at h2 ⊢; omega

theorem runesLoop_fuel (n : Nat) : ∀ (m : Nat) (s : List Nat), s.length ≤ n → s.length ≤ m →
    runesLoop n s = runesLoop m s := by
  induction n with
  | zero =>
    intro m s h _
    have : s = [] := List.eq_nil_of_length_eq_zero (by omega)
    subst this
    cases m <;> rfl
  | succ n ih =>
    intro m s h1 h2
    match s, m with
    | [], 0 => rfl
    | [], m + 1 => rfl
    | b0 :: t, 0 => simp at h2
    | b0 :: t, m + 1 =>
      simp only [runesLoop]
      have hk := decode_width_pos b0 t
      congr 1
      apply ih
      · simp only [List.length_drop, List.length_cons] at h1 ⊢; omega
      · simp only [List.length_drop, List.length_cons] at h2 ⊢; omega

theorem ValidString_nil : ValidString [] = true := rfl

theorem ValidString_cons (b0 : Nat) (t : List Nat) :
    ValidString (b0 :: t) = match validStep (b0 :: t) with
      | none => false
      | some n => ValidString ((b0 :: t).drop n) := by
  simp only [ValidString, List.length_cons, validLoop]
  cases hv : validStep (b0 :: t) with
  | none => rfl
  | some k =>
    have hk := validStep_pos b0 t k hv
    simp only
    apply validLoop_fuel
    · simp only [List.length_drop, List.length_cons]; omega
    · exact Nat.le_refl _

theorem stringToRunes_nil : stringToRunes [] = [] := rfl

theorem stringToRunes_cons (b0 : Nat) (t : List Nat) :
    stringToRunes (b0 :: t) = (DecodeRuneInString (b0 :: t)).1 ::
      stringToRunes ((b0 :: t).drop (DecodeRuneInString (b0 :: t)).2) := by
  simp only [stringToRunes, List.length_cons, runesLoop]
  have hk := decode_width_pos b0 t
  congr 1
  apply runesLoop_fuel
  · simp only [List.length_drop, List.length_cons]; omega
  · exact Nat.le_refl _

theorem encode_step (r : Nat) (h : ValidRune r) (t : List Nat) :
    ValidString (EncodeRune r ++ t) = ValidString t ∧
      stringToRunes (EncodeRune r ++ t) = r :: stringToRunes t := by
  rcases ValidRune_shape r h with h1 | ⟨b0, c1, hw, rfl⟩ | ⟨b0, c1, c2, hw, rfl⟩ |
    ⟨b0, c1, c2, c3, hw, rfl⟩
  · rw [EncodeRune_one r (by omega)]
    simp only [List.singleton_append]
    rw [ValidString_cons, stringToRunes_cons, validStep_wf1 r t h1, decode_wf1 r t h1]
    simp
  · rw [(encode_wf2 b0 c1 hw).1]
    simp only [List.cons_append, List.nil_append]
    rw [ValidString_cons, stringToRunes_cons, validStep_wf2 b0 c1 t hw, decode_wf2 b0 c1 t hw]
    simp
  · rw [(encode_wf3 b0 c1 c2 hw).1]
    simp only [List.cons_append, List.nil_append]
    rw [ValidString_cons, stringToRunes_cons, validStep_wf3 b0 c1 c2 t hw,
      decode_wf3 b0 c1 c2 t hw]
    simp
  · rw [(encode_wf4 b0 c1 c2 c3 hw).1]
    simp only [List.cons_append, List.nil_append]
    rw [ValidString_cons, stringToRunes_cons, validStep_wf4 b0 c1 c2 c3 t hw,
      decode_wf4 b0 c1 c2 c3 t hw]
    simp

theorem valid_step (b0 : Nat) (t : List Nat) (h : ValidString (b0 :: t) = true) :
    ∃ r u, ValidRune r ∧ b0 :: t = EncodeRune r ++ u ∧ ValidString u = true ∧
      u.length < (b0 :: t).length := by
  rw [ValidString_cons] at h
  cases hv : validStep (b0 :: t) with
  | none => rw [hv] at h; simp at h
  | some n =>
    rw [hv] at h
    simp only at h
    rcases validStep_inv b0 t n hv with ⟨h1, rfl⟩ | ⟨c1, u, rfl, rfl, hw⟩ |
      ⟨c1, c2, u, rfl, rfl, hw⟩ | ⟨c1, c2, c3, u, rfl, rfl, hw⟩
    · refine ⟨b0, t, Or.inl (by unfold surrogateMin; omega), ?_, by simpa using h, by simp⟩
      rw [EncodeRune_one b0 (by omega)]
      rfl
    · refine ⟨_, u, (encode_wf2 b0 c1 hw).2, ?_, by simpa using h, by simp; omega⟩
      rw [(encode_wf2 b0 c1 hw).1]
      rfl
    · refine ⟨_, u, (encode_wf3 b0 c1 c2 hw).2, ?_, by simpa using h, by simp; omega⟩
      rw [(encode_wf3 b0 c1 c2 hw).1]
      rfl
    · refine ⟨_, u, (encode_wf4 b0 c1 c2 c3 hw).2, ?_, by simpa using h, by simp; omega⟩
      rw [(encode_wf4 b0 c1 c2 c3 hw).1]
      rfl

theorem decode_encode (rs : List Nat) (h : ∀ r ∈ rs, ValidRune r) :
    ValidString (runesToString rs) = true ∧ stringToRunes (runesToString rs) = rs := by
  induction rs with
  | nil => exact ⟨rfl, rfl⟩
  | cons r rs ih =>
    have hr : ValidRune r := h r (List.mem_cons_self _ _)
    have ih2 := ih (fun x hx => h x (List.mem_cons_of_mem _ hx))
    have es := encode_step r hr (runesToString rs)
    simp only [runesToString]
    rw [es.1, es.2, ih2.1, ih2.2]
    exact ⟨rfl, rfl⟩

theorem valid_is_encoding (n : Nat) : ∀ s : List Nat, s.length ≤ n → ValidString s = true →
    ∃ rs, (∀ r ∈ rs, ValidRune r) ∧ runesToString rs = s := by
  induction n with
  | zero =>
    intro s hl _
    have : s = [] := List.eq_nil_of_length_eq_zero (by omega)
    exact ⟨[], by simp, by rw [this]; rfl⟩
  | succ n ih =>
    intro s hl hv
    match s, hl, hv with
    | [], _, _ => exact ⟨[], by simp, rfl⟩
    | b0 :: t, hl, hv =>
      obtain ⟨r, u, hr, he, hu, hlen⟩ := valid_step b0 t hv
      obtain ⟨rs, hrs, hrs2⟩ := ih u (by omega) hu
      refine ⟨r :: rs, ?_, ?_⟩
      · intro x hx
        rcases List.mem_cons.1 hx with rfl | hx
        · exact hr
        · exact hrs x hx
      · simp only [runesToString]
        rw [hrs2, he]

/-- A valid string is the encoding of its own decoding, and every decoded rune
is a code point that UTF-8 can encode. -/
theorem encode_decode (s : List Nat) (h : ValidString s = true) :
    runesToString (stringToRunes s) = s ∧ ∀ r ∈ stringToRunes s, ValidRune r := by
  obtain ⟨rs, hrs, rfl⟩ := valid_is_encoding s.length s (Nat.le_refl _) h
  rw [(decode_encode rs hrs).2]
  exact ⟨rfl, hrs⟩

/-! ## `Reverse` on valid and on invalid input -/

theorem Reverse_valid (s : List Nat) (h : ValidString s = true) :
    Reverse s = some (runesToString (stringToRunes s).reverse, none) := by
  simp only [Reverse, h, Bool.not_true, Bool.false_eq_true, if_false]
  rw [reverseLoop_eq_reverse]

theorem Reverse_invalid (s : List Nat) (h : ValidString s = false) :
    Reverse s = some (s, some "input is not valid UTF-8") := by
  simp only [Reverse, h, Bool.not_false, if_true]

theorem ValidRune_reverse (rs : List Nat) (h : ∀ r ∈ rs, ValidRune r) :
    ∀ r ∈ rs.reverse, ValidRune r :=
  fun r hr => h r (List.mem_reverse.1 hr)

/-- On a valid string `Reverse` returns the encoding of the reversed rune
sequence, which is valid and decodes to that sequence. -/
theorem Reverse_valid_spec (s : List Nat) (h : ValidString s = true) :
    ∃ t, Reverse s = some (t, none) ∧ ValidString t = true ∧
      stringToRunes t = (stringToRunes s).reverse ∧
      runesToString (stringToRunes t).reverse = s := by
  obtain ⟨h1, h2⟩ := encode_decode s h
  obtain ⟨h3, h4⟩ := decode_encode _ (ValidRune_reverse _ h2)
  refine ⟨_, Reverse_valid s h, h3, h4, ?_⟩
  rw [h4, List.reverse_reverse, h1]

theorem runesToString_eq_flatten (rs : List Nat) :
    runesToString rs = (rs.map EncodeRune).flatten := by
  induction rs with
  | nil => rfl
  | cons r rs ih => simp only [runesToString, List.map_cons, List.flatten_cons, ih]

theorem runesToString_ascii (s : List Nat) (h : ∀ b ∈ s, b < 0x80) : runesToString s = s := by
  induction s with
  | nil => rfl
  | cons b s ih =>
    have hb : b < 0x80 := h b (List.mem_cons_self _ _)
    simp only [runesToString]
    rw [EncodeRune_one b (by omega), ih (fun x hx => h x (List.mem_cons_of_mem _ hx))]
    rfl

theorem ValidRune_ascii (b : Nat) (h : b < 0x80) : ValidRune b :=
  Or.inl (by unfold surrogateMin; omega)

theorem EncodeRune_length (r : Nat) :
    1 ≤ (EncodeRune r).length ∧ (EncodeRune r).length ≤ 4 := by
  unfold EncodeRune
  split_ifs <;> simp

/-! ## The bounded swap loop, the slice helpers and concatenation -/

theorem reverseLoopRun_fst (fuel : Nat) : ∀ (r : List Nat) (i : Nat) (j : Int),
    r.length / 2 - i ≤ fuel →
    ∃ out, reverseLoopRun fuel r i j = some out ∧ out.map Prod.fst = reverseLoop r i j := by
  induction fuel with
  | zero =>
    intro r i j h
    have c : ¬ i < r.length / 2 := by omega
    refine ⟨some (r, []), by simp [reverseLoopRun, c], ?_⟩
    rw [reverseLoop]
    simp [c]
  | succ fuel ih =>
    intro r i j h
    by_cases c : i < r.length / 2
    · by_cases b : i < r.length ∧ 0 ≤ j ∧ j < r.length
      · obtain ⟨out, h1, h2⟩ := ih ((r.set i (r.getD j.toNat 0)).set j.toNat (r.getD i 0))
          (i + 1) (j - 1) (by simp only [List.length_set]; omega)
        rw [reverseLoop]
        simp only [reverseLoopRun, c, b, if_true, and_self, h1, ← h2]
        cases out with
        | none => exact ⟨none, rfl, rfl⟩
        | some p => exact ⟨some (p.1, (i, j) :: p.2), rfl, rfl⟩
      · refine ⟨none, by simp [reverseLoopRun, c, b], ?_⟩
        rw [reverseLoop]
        simp [c, b]
    · refine ⟨some (r, []), by simp [reverseLoopRun, c], ?_⟩
      rw [reverseLoop]
      simp [c]

theorem reverseLoopRun_trace (fuel : Nat) : ∀ (n : Nat) (r : List Nat) (i : Nat),
    r.length = n → i ≤ n / 2 → n / 2 - i ≤ fuel →
    ∃ r', reverseLoopRun fuel r i ((n : Int) - 1 - i) =
      some (some (r', (List.range' i (n / 2 - i)).map (fun k : Nat => (k, (n : Int) - 1 - k)))) := by
  induction fuel with
  | zero =>
    intro n r i hn hi h
    have c : ¬ i < r.length / 2 := by omega
    have e : n / 2 - i = 0 := by omega
    exact ⟨r, by simp [reverseLoopRun, c, e]⟩
  | succ fuel ih =>
    intro n r i hn hi h
    by_cases c : i < r.length / 2
    · have b : i < r.length ∧ (0 : Int) ≤ (n : Int) - 1 - i ∧ (n : Int) - 1 - i < r.length := by
        omega
      obtain ⟨r', h1⟩ := ih n ((r.set i (r.getD ((n : Int) - 1 - i).toNat 0)).set
        ((n : Int) - 1 - i).toNat (r.getD i 0)) (i + 1) (by simp only [List.length_set]; exact hn)
        (by omega) (by omega)
      have e : (n : Int) - 1 - i - 1 = (n : Int) - 1 - ((i + 1 : Nat) : Int) := by
        push_cast; omega
      have e2 : n / 2 - i = (n / 2 - (i + 1)) + 1 := by omega
      refine ⟨r', ?_⟩
      simp only [reverseLoopRun, c, b, if_true, and_self, e, h1]
      rw [e2, List.range'_succ]
      simp only [List.map_cons]
    · have e : n / 2 - i = 0 := by omega
      exact ⟨r, by simp [reverseLoopRun, c, e]⟩

theorem reverseLoopRun_eq (r : List Nat) (fuel : Nat) (h : r.length / 2 ≤ fuel) :
    reverseLoopRun fuel r 0 ((r.length : Int) - 1) =
      some (some (r.reverse,
        (List.range (r.length / 2)).map (fun k : Nat => (k, (r.length : Int) - 1 - k)))) := by
  obtain ⟨r', h1⟩ := reverseLoopRun_trace fuel r.length r 0 rfl (Nat.zero_le _) (by omega)
  obtain ⟨out, h2, h3⟩ := reverseLoopRun_fst fuel r 0 ((r.length : Int) - 1) (by omega)
  simp only [Nat.cast_zero, sub_zero, Nat.sub_zero] at h1
  rw [h1] at h2
  rw [reverseLoop_eq_reverse, ← Option.some.inj h2] at h3
  simp only [Option.map_some', Option.some.injEq] at h3
  rw [h1, h3, List.range_eq_range']

theorem runeIteration_mono (fuel : Nat) : ∀ (s : List Nat) (i : Nat) (out : List (Nat × Nat))
    (k : Nat), runeIteration fuel s i = some out → runeIteration (fuel + k) s i = some out := by
  induction fuel with
  | zero =>
    intro s i out k h
    by_cases c : i < s.length
    · simp [runeIteration, c] at h
    · simp only [runeIteration, c, if_false] at h
      cases k with
      | zero => simp only [Nat.add_zero, runeIteration, c, if_false, h]
      | succ k => simp only [Nat.zero_add, runeIteration, c, if_false, h]
  | succ fuel ih =>
    intro s i out k h
    have e : fuel + 1 + k = (fuel + k) + 1 := by omega
    rw [e]
    by_cases c : i < s.length
    · simp only [runeIteration, c, if_true] at h ⊢
      cases hr : runeIteration fuel s (i + (DecodeRuneInString (List.drop i s)).2) with
      | none => rw [hr] at h; simp at h
      | some o =>
        rw [hr] at h
        rw [ih s _ o k hr]
        exact h
    · simp only [runeIteration, c, if_false] at h ⊢
      exact h

theorem addOne_fold (slice : List Nat) (k : Nat) :
    ((List.range k).foldl (fun sl i => sl.set i ((sl.getD i 0 + 1) % 256)) slice).length
        = slice.length ∧
    ∀ j, ((List.range k).foldl (fun sl i => sl.set i ((sl.getD i 0 + 1) % 256)) slice)[j]?
        = if j < k then slice[j]?.map (fun b => (b + 1) % 256) else slice[j]? := by
  induction k with
  | zero => exact ⟨rfl, fun j => by simp⟩
  | succ k ih =>
    obtain ⟨hl, hj⟩ := ih
    rw [List.range_succ, List.foldl_append]
    simp only [List.foldl_cons, List.foldl_nil, List.length_set]
    refine ⟨hl, fun j => ?_⟩
    rw [List.getElem?_set, List.getD_eq_getElem?_getD, hj k, hl]
    by_cases e : k = j
    · subst e
      simp only [if_true, Nat.lt_irrefl, if_false, Nat.lt_succ_self]
      by_cases c : k < slice.length
      · simp [c, List.getElem?_eq_getElem c]
      · simp [c, List.getElem?_eq_none (Nat.le_of_not_lt c)]
    · rw [if_neg e, hj j]
      by_cases c : j < k
      · have c2 : j < k + 1 := by omega
        rw [if_pos c, if_pos c2]
      · have c2 : ¬ j < k + 1 := by omega
        rw [if_neg c, if_neg c2]

theorem AddOneToEachElement_eq_map (slice : List Nat) :
    AddOneToEachElement slice = slice.map (fun b => (b + 1) % 256) := by
  apply List.ext_getElem?
  intro j
  rw [AddOneToEachElement, (addOne_fold slice slice.length).2 j, List.getElem?_map]
  by_cases c : j < slice.length
  · rw [if_pos c]
  · rw [if_neg c, List.getElem?_eq_none (Nat.le_of_not_lt c)]
    rfl

theorem runesToString_append (a b : List Nat) :
    runesToString (a ++ b) = runesToString a ++ runesToString b := by
  induction a with
  | nil => rfl
  | cons r a ih =>
    rw [List.cons_append]
    simp only [runesToString]
    rw [ih, List.append_assoc]

theorem runesToString_reverse_length (rs : List Nat) :
    (runesToString rs.reverse).length = (runesToString rs).length := by
  induction rs with
  | nil => rfl
  | cons r rs ih =>
    rw [List.reverse_cons, runesToString_append]
    simp only [runesToString, List.length_append, List.append_nil, ih]
    omega

/-! ## The claims -/

/-- C1: for every valid UTF-8 input `s`, `Reverse s` returns `(t, nil)` and the
code point sequence decoded from `t` is the reverse of the code point sequence
decoded from `s`. -/
theorem C1_reverse_code_points (s : List Nat) (h : ValidString s = true) :
    ∃ t, Reverse s = some (t, none) ∧ stringToRunes t = (stringToRunes s).reverse := by
  obtain ⟨t, h1, _, h3, _⟩ := Reverse_valid_spec s h
  exact ⟨t, h1, h3⟩

theorem C1_reverse_code_points_witness :
    ValidString [0x61, 0xC3, 0xA9, 0xE6, 0x97, 0xA5] = true ∧
    ∃ t, Reverse [0x61, 0xC3, 0xA9, 0xE6, 0x97, 0xA5] = some (t, none) ∧
      stringToRunes t = (stringToRunes [0x61, 0xC3, 0xA9, 0xE6, 0x97, 0xA5]).reverse :=
  ⟨by decide, C1_reverse_code_points [0x61, 0xC3, 0xA9, 0xE6, 0x97, 0xA5] (by decide)⟩

/-- C2: involution. For every valid UTF-8 input `s`, `Reverse s` returns
`(t, nil)` and `Reverse t` returns `(s, nil)`: reversing twice gives back the
original bytes, with no error on either call. -/
theorem C2_involution (s : List Nat) (h : ValidString s = true) :
    ∃ t, Reverse s = some (t, none) ∧ Reverse t = some (s, none) := by
  obtain ⟨t, h1, h2, _, h4⟩ := Reverse_valid_spec s h
  refine ⟨t, h1, ?_⟩
  rw [Reverse_valid t h2, h4]

theorem C2_involution_witness :
    ValidString input = true ∧
    ∃ t, Reverse input = some (t, none) ∧ Reverse t = some (input, none) :=
  ⟨by decide, C2_involution input (by decide)⟩

/-- C3: for every byte sequence `bad` that is not valid UTF-8, `Reverse bad`
returns `bad` itself, byte for byte, together with a non-nil error. -/
theorem C3_invalid_echoed (bad : List Nat) (h : ValidString bad = false) :
    ∃ err, Reverse bad = some (bad, some err) :=
  ⟨_, Reverse_invalid bad h⟩

theorem C3_invalid_echoed_witness :
    ValidString [0x61, 0xE6, 0x97] = false ∧
    ∃ err, Reverse [0x61, 0xE6, 0x97] = some ([0x61, 0xE6, 0x97], some err) :=
  ⟨by decide, C3_invalid_echoed [0x61, 0xE6, 0x97] (by decide)⟩

/-- C4: `Reverse` always returns, and its error is non-nil if and only if the
input is not valid UTF-8; the valid inputs are exactly the encodings of
sequences of code points that are neither surrogates nor above `MaxRune`
(U+FFFD and the four-byte code points among them). -/
theorem C4_error_iff_invalid (s : List Nat) :
    ∃ t e, Reverse s = some (t, e) ∧ (e ≠ none ↔ ValidString s = false) ∧
      (e = none ↔ ∃ rs, (∀ r ∈ rs, ValidRune r) ∧ runesToString rs = s) := by
  cases h : ValidString s with
  | true =>
    refine ⟨_, none, Reverse_valid s h, by simp, ?_⟩
    simp only [true_iff]
    exact valid_is_encoding s.length s (Nat.le_refl _) h
  | false =>
    refine ⟨s, _, Reverse_invalid s h, by simp, ?_⟩
    simp only [reduceCtorEq, false_iff]
    rintro ⟨rs, hrs, rfl⟩
    rw [(decode_encode rs hrs).1] at h
    exact Bool.noConfusion h

/-- C5: for every valid UTF-8 input `s`, the string returned by `Reverse s` is
valid UTF-8. -/
theorem C5_validity_preserved (s : List Nat) (h : ValidString s = true) :
    ∃ t, Reverse s = some (t, none) ∧ ValidString t = true := by
  obtain ⟨t, h1, h2, _, _⟩ := Reverse_valid_spec s h
  exact ⟨t, h1, h2⟩

theorem C5_validity_preserved_witness :
    ValidString nihongo = true ∧
    ∃ t, Reverse nihongo = some (t, none) ∧ ValidString t = true :=
  ⟨by decide, C5_validity_preserved nihongo (by decide)⟩

/-- C6: for every valid UTF-8 input `s`, the code points decoded from the output
of `Reverse s` are a permutation of those decoded from `s`: every code point
occurs in the output exactly as many times as in the input. -/
theorem C6_same_multiset (s : List Nat) (h : ValidString s = true) :
    ∃ t, Reverse s = some (t, none) ∧ (stringToRunes t).Perm (stringToRunes s) ∧
      ∀ c, (stringToRunes t).count c = (stringToRunes s).count c := by
  obtain ⟨t, h1, _, h3, _⟩ := Reverse_valid_spec s h
  refine ⟨t, h1, ?_, ?_⟩
  · rw [h3]; exact List.reverse_perm _
  · intro c; rw [h3, List.count_reverse]

theorem C6_same_multiset_witness :
    ValidString [0x61, 0x62, 0x61, 0xC3, 0xA9] = true ∧
    ∃ t, Reverse [0x61, 0x62, 0x61, 0xC3, 0xA9] = some (t, none) ∧
      (stringToRunes t).Perm (stringToRunes [0x61, 0x62, 0x61, 0xC3, 0xA9]) ∧
      ∀ c, (stringToRunes t).count c = (stringToRunes [0x61, 0x62, 0x61, 0xC3, 0xA9]).count c :=
  ⟨by decide, C6_same_multiset [0x61, 0x62, 0x61, 0xC3, 0xA9] (by decide)⟩

/-- C7: for every input that is the concatenation of the three-byte encodings
of `k` code points, `Reverse` returns no error and its output is the `k`
three-byte groups in reverse order, each group with its bytes in the original
order. -/
theorem C7_three_byte_groups (gs : List (List Nat))
    (h : ∀ g ∈ gs, g.length = 3 ∧ ∃ r, ValidRune r ∧ g = EncodeRune r) :
    Reverse gs.flatten = some (gs.reverse.flatten, none) := by
  have key : ∃ rs : List Nat, (∀ r ∈ rs, ValidRune r) ∧ gs = rs.map EncodeRune := by
    induction gs with
    | nil => exact ⟨[], by simp, rfl⟩
    | cons g gs ih =>
      obtain ⟨rs, hrs, he⟩ := ih (fun x hx => h x (List.mem_cons_of_mem _ hx))
      obtain ⟨_, r, hr, hg⟩ := h g (List.mem_cons_self _ _)
      refine ⟨r :: rs, ?_, by rw [List.map_cons, ← hg, ← he]⟩
      intro x hx
      rcases List.mem_cons.1 hx with rfl | hx
      · exact hr
      · exact hrs x hx
  obtain ⟨rs, hrs, rfl⟩ := key
  obtain ⟨h1, h2⟩ := decode_encode rs hrs
  rw [← runesToString_eq_flatten, Reverse_valid _ h1, h2, runesToString_eq_flatten,
    List.map_reverse]

theorem C7_three_byte_groups_witness :
    (∀ g ∈ [[0xE6, 0x97, 0xA5], [0xE6, 0x9C, 0xAC], [0xE8, 0xAA, 0x9E]],
      g.length = 3 ∧ ∃ r, ValidRune r ∧ g = EncodeRune r) ∧
    Reverse nihongo = some ([0xE8, 0xAA, 0x9E, 0xE6, 0x9C, 0xAC, 0xE6, 0x97, 0xA5], none) :=
  have hg : ∀ g ∈ [[0xE6, 0x97, 0xA5], [0xE6, 0x9C, 0xAC], [0xE8, 0xAA, 0x9E]],
      g.length = 3 ∧ ∃ r, ValidRune r ∧ g = EncodeRune r := by
    intro g hg
    simp only [List.mem_cons, List.mem_singleton, List.not_mem_nil, or_false] at hg
    rcases hg with rfl | rfl | rfl
    · exact ⟨rfl, 0x65E5, by decide, by decide⟩
    · exact ⟨rfl, 0x672C, by decide, by decide⟩
    · exact ⟨rfl, 0x8A9E, by decide, by decide⟩
  ⟨hg, C7_three_byte_groups [[0xE6, 0x97, 0xA5], [0xE6, 0x9C, 0xAC], [0xE8, 0xAA, 0x9E]] hg⟩

/-- C8: `Reverse` applied to the empty string returns the empty string and a nil
error. -/
theorem C8_empty : Reverse [] = some ([], none) :=
  Reverse_valid [] rfl

/-- C9: for every string `x` that is the UTF-8 encoding of a single valid code
point (one to four bytes), `Reverse x` returns `(x, nil)`. -/
theorem C9_single_code_point (r : Nat) (h : ValidRune r) :
    Reverse (EncodeRune r) = some (EncodeRune r, none) ∧
      1 ≤ (EncodeRune r).length ∧ (EncodeRune r).length ≤ 4 := by
  have e : runesToString [r] = EncodeRune r := by simp [runesToString]
  obtain ⟨h1, h2⟩ := decode_encode [r] (by simpa using h)
  rw [e] at h1 h2
  refine ⟨?_, EncodeRune_length r⟩
  rw [Reverse_valid _ h1, h2, List.reverse_singleton, e]

theorem C9_single_code_point_witness :
    ValidRune 0x1F600 ∧
    Reverse [0xF0, 0x9F, 0x98, 0x80] = some ([0xF0, 0x9F, 0x98, 0x80], none) ∧
      1 ≤ (EncodeRune 0x1F600).length ∧ (EncodeRune 0x1F600).length ≤ 4 :=
  ⟨by decide, C9_single_code_point 0x1F600 (by decide)⟩

/-- C10: for every input made only of ASCII bytes (each below 0x80), `Reverse`
returns a nil error and the byte-wise reversal of the input. -/
theorem C10_ascii_bytewise (s : List Nat) (h : ∀ b ∈ s, b < 0x80) :
    Reverse s = some (s.reverse, none) := by
  have hv : ∀ r ∈ s, ValidRune r := fun r hr => ValidRune_ascii r (h r hr)
  obtain ⟨h1, h2⟩ := decode_encode s hv
  rw [runesToString_ascii s h] at h1 h2
  rw [Reverse_valid s h1, h2]
  rw [runesToString_ascii]
  intro b hb
  exact h b (List.mem_reverse.1 hb)

theorem C10_ascii_bytewise_witness :
    (∀ b ∈ [0x61, 0x62], b < 0x80) ∧ Reverse [0x61, 0x62] = some ([0x62, 0x61], none) :=
  ⟨by decide, C10_ascii_bytewise [0x61, 0x62] (by decide)⟩

/-- C11: `Reverse` never faults. For every byte sequence it returns a pair of
a string and an error, and on every rune slice the swap loop runs to its end
with every index `i` and `j` it uses inside the slice. -/
theorem C11_never_faults :
    (∀ s : List Nat, ∃ t e, Reverse s = some (t, e)) ∧
    (∀ r : List Nat, ∃ r' tr,
      reverseLoopRun (r.length / 2) r 0 ((r.length : Int) - 1) = some (some (r', tr)) ∧
      reverseLoop r 0 ((r.length : Int) - 1) = some r' ∧
      ∀ p ∈ tr, p.1 < r.length ∧ 0 ≤ p.2 ∧ p.2 < r.length) := by
  constructor
  · intro s
    cases h : ValidString s with
    | true => exact ⟨_, _, Reverse_valid s h⟩
    | false => exact ⟨_, _, Reverse_invalid s h⟩
  · intro r
    refine ⟨_, _, reverseLoopRun_eq r _ (Nat.le_refl _), reverseLoop_eq_reverse r, ?_⟩
    intro p hp
    obtain ⟨k, hk, rfl⟩ := List.mem_map.1 hp
    have hk2 : k < r.length / 2 := List.mem_range.1 hk
    simp only
    omega

/-- C12: the swap loop of `Reverse` terminates. From any loop state, a run
bounded by `len(r)/2 - i` iterations reaches the end of the loop and gives the
outcome of the loop, and every iteration makes `len(r)/2 - i` smaller. -/
theorem C12_loop_terminates (r : List Nat) (i : Nat) (j : Int) (fuel : Nat)
    (h : r.length / 2 - i ≤ fuel) :
    (∃ out, reverseLoopRun fuel r i j = some out ∧ out.map Prod.fst = reverseLoop r i j) ∧
    (i < r.length / 2 →
      ((r.set i (r.getD j.toNat 0)).set j.toNat (r.getD i 0)).length / 2 - (i + 1)
        < r.length / 2 - i) := by
  refine ⟨reverseLoopRun_fst fuel r i j h, fun hi => ?_⟩
  simp only [List.length_set]
  omega

theorem C12_loop_terminates_witness :
    [1, 2, 3, 4, 5].length / 2 - 0 ≤ 2 ∧
    ((∃ out, reverseLoopRun 2 [1, 2, 3, 4, 5] 0 4 = some out ∧
        out.map Prod.fst = reverseLoop [1, 2, 3, 4, 5] 0 4) ∧
     (0 < [1, 2, 3, 4, 5].length / 2 →
      (([1, 2, 3, 4, 5].set 0 ([1, 2, 3, 4, 5].getD (4 : Int).toNat 0)).set (4 : Int).toNat
          ([1, 2, 3, 4, 5].getD 0 0)).length / 2 - (0 + 1)
        < [1, 2, 3, 4, 5].length / 2 - 0)) :=
  ⟨by decide, C12_loop_terminates [1, 2, 3, 4, 5] 0 4 2 (by decide)⟩

/-- C13: on a rune slice of length `n` the loop of `Reverse` performs exactly
`n / 2` swaps, the `k`-th one (counting from 0) exchanging positions `k` and
`n - 1 - k`, and leaves the slice reversed; for odd `n` no swap touches the
middle position `n / 2`. -/
theorem C13_swap_count (r : List Nat) :
    ∃ tr, reverseLoopRun (r.length / 2) r 0 ((r.length : Int) - 1)
        = some (some (r.reverse, tr)) ∧
      tr.length = r.length / 2 ∧
      (∀ k, k < r.length / 2 → tr[k]? = some (k, (r.length : Int) - 1 - k)) ∧
      (r.length % 2 = 1 → ∀ p ∈ tr, p.1 ≠ r.length / 2 ∧ p.2 ≠ ((r.length / 2 : Nat) : Int)) := by
  refine ⟨_, reverseLoopRun_eq r _ (Nat.le_refl _), by simp, ?_, ?_⟩
  · intro k hk
    simp [List.getElem?_range hk]
  · intro hodd p hp
    obtain ⟨k, hk, rfl⟩ := List.mem_map.1 hp
    have hk2 : k < r.length / 2 := List.mem_range.1 hk
    simp only
    omega

/-- C14: the string returned by `Reverse` is an involution on all inputs: for
every byte sequence `s`, valid or not, `Reverse s` returns some `t` and
`Reverse t` returns `s` byte for byte. -/
theorem C14_involution_all (s : List Nat) :
    ∃ t e e', Reverse s = some (t, e) ∧ Reverse t = some (s, e') := by
  cases h : ValidString s with
  | true =>
    obtain ⟨t, h1, h2, _, h4⟩ := Reverse_valid_spec s h
    refine ⟨t, none, none, h1, ?_⟩
    rw [Reverse_valid t h2, h4]
  | false => exact ⟨s, _, _, Reverse_invalid s h, Reverse_invalid s h⟩

/-- C15: `Reverse` preserves the byte length: for every byte sequence `s`,
valid or not, the string it returns has exactly `len(s)` bytes. -/
theorem C15_length_preserved (s : List Nat) :
    ∃ t e, Reverse s = some (t, e) ∧ t.length = s.length := by
  cases h : ValidString s with
  | true =>
    refine ⟨_, none, Reverse_valid s h, ?_⟩
    rw [runesToString_reverse_length, (encode_decode s h).1]
  | false => exact ⟨s, _, Reverse_invalid s h, rfl⟩

/-- C16: `Reverse` is an anti-homomorphism over the concatenation of valid
strings: for valid `a` and `b`, with `Reverse a = (ra, nil)` and
`Reverse b = (rb, nil)`, `Reverse (a + b)` returns `(rb + ra, nil)`. -/
theorem C16_anti_homomorphism (a b : List Nat) (ha : ValidString a = true)
    (hb : ValidString b = true) :
    ∃ ra rb, Reverse a = some (ra, none) ∧ Reverse b = some (rb, none) ∧
      Reverse (a ++ b) = some (rb ++ ra, none) := by
  obtain ⟨xs, hxs, rfl⟩ := valid_is_encoding a.length a (Nat.le_refl _) ha
  obtain ⟨ys, hys, rfl⟩ := valid_is_encoding b.length b (Nat.le_refl _) hb
  have hxy : ∀ r ∈ xs ++ ys, ValidRune r := by
    intro r hr
    rcases List.mem_append.1 hr with h | h
    · exact hxs r h
    · exact hys r h
  obtain ⟨v, d⟩ := decode_encode (xs ++ ys) hxy
  refine ⟨_, _, Reverse_valid _ ha, Reverse_valid _ hb, ?_⟩
  rw [← runesToString_append, Reverse_valid _ v, d, (decode_encode xs hxs).2,
    (decode_encode ys hys).2, List.reverse_append, runesToString_append]

theorem C16_anti_homomorphism_witness :
    ValidString [0x61, 0x62] = true ∧ ValidString [0xE6, 0x97, 0xA5, 0x63] = true ∧
    ∃ ra rb, Reverse [0x61, 0x62] = some (ra, none) ∧
      Reverse [0xE6, 0x97, 0xA5, 0x63] = some (rb, none) ∧
      Reverse ([0x61, 0x62] ++ [0xE6, 0x97, 0xA5, 0x63]) = some (rb ++ ra, none) :=
  ⟨by decide, by decide,
    C16_anti_homomorphism [0x61, 0x62] [0xE6, 0x97, 0xA5, 0x63] (by decide) (by decide)⟩

/-- C17: the rune iteration of `main` over the nine bytes of `nihongo` runs
exactly three iterations, at the byte positions 0, 3 and 6, decoding U+65E5,
U+672C and U+8A9E in that order: two iterations do not reach the end, three or
more do. -/
theorem C17_rune_iteration :
    nihongo.length = 9 ∧ runeIteration 2 nihongo 0 = none ∧
    ∀ k, runeIteration (3 + k) nihongo 0 = some [(0x65E5, 0), (0x672C, 3), (0x8A9E, 6)] :=
  ⟨rfl, by decide, fun k => runeIteration_mono 3 nihongo 0 _ k (by decide)⟩

/-- C18: `AddOneToEachElement` replaces every element `b` of the slice by
`(b + 1) mod 256` and keeps the length; 0xFF wraps to 0x00 and the empty slice
stays empty. -/
theorem C18_add_one :
    (∀ slice : List Nat,
      AddOneToEachElement slice = slice.map (fun b => (b + 1) % 256) ∧
      (AddOneToEachElement slice).length = slice.length) ∧
    AddOneToEachElement [0xFF] = [0x00] ∧ AddOneToEachElement [] = [] := by
  refine ⟨fun slice => ⟨AddOneToEachElement_eq_map slice, ?_⟩, by decide, by decide⟩
  rw [AddOneToEachElement_eq_map, List.length_map]

/-- C19: `SubtractOneFromLength` returns exactly when the slice is non-empty,
and then returns the slice without its last element (length `n - 1`, the
elements `0 .. n - 2` in order); on the empty slice the slice expression
`[0 : -1]` is out of range and the call faults. -/
theorem C19_subtract_one (slice : List Nat) :
    ((∃ out, SubtractOneFromLength slice = some out) ↔ slice ≠ []) ∧
    (slice ≠ [] → ∃ out, SubtractOneFromLength slice = some out ∧
      out = slice.take (slice.length - 1) ∧ out.length = slice.length - 1 ∧
      ∀ i, i < slice.length - 1 → out[i]? = slice[i]?) ∧
    (slice = [] → SubtractOneFromLength slice = none) := by
  cases slice with
  | nil => simp [SubtractOneFromLength, sliceExpr]
  | cons b t =>
    have e : SubtractOneFromLength (b :: t) = some ((b :: t).take ((b :: t).length - 1)) := by
      have c : (0 : Int) ≤ 0 ∧ (0 : Int) ≤ ((b :: t).length : Int) - 1 ∧
          ((b :: t).length : Int) - 1 ≤ ((b :: t).length : Nat) := by
        simp only [List.length_cons]; omega
      have e2 : (((b :: t).length : Int) - 1).toNat = (b :: t).length - 1 := by
        simp only [List.length_cons]; omega
      simp only [SubtractOneFromLength, sliceExpr, c, and_self, if_true, e2, Int.toNat_zero,
        List.drop_zero]
    refine ⟨⟨fun _ => List.cons_ne_nil _ _, fun _ => ⟨_, e⟩⟩, fun _ => ⟨_, e, rfl, ?_, ?_⟩,
      fun h => absurd h (List.cons_ne_nil _ _)⟩
    · simp only [List.length_take, List.length_cons]; omega
    · intro i hi
      rw [List.getElem?_take, if_pos hi]

end Fuzz
